import Mathlib

/-!
# Normal form of linear constraints and BDD sinks (`lineq_bdd.h`)

Shallow embedding of `LPMP::lineq_bdd::normal_form`, of the terminal nodes that
the constructor `LPMP::lineq_bdd::lineq_bdd()` creates, and of the inequality
compiler `build_from_inequality`.

Conventions of the embedding.
* A C++ `int` is an `Int` in the range `[INT_MIN, INT_MAX]` (32 bit); the working
  type `integer = long long int` is an `Int` in `[INTEGER_MIN, INTEGER_MAX]`
  (64 bit).
* An operation whose behaviour the C++ standard leaves undefined (division by
  zero, `std::gcd` on a value whose absolute value is not representable, a
  floating-integral conversion out of range, a failed `assert`) yields `none`.
* The definitions with the suffix `_wrapped` give `normal_form` as the usual build
  runs it, where the last two operations wrap around at `INT_MIN` instead.
-/

namespace LPMP

/-! ## Machine integers -/

/-- Smallest value of the C++ type `int` (32 bit). -/
def INT_MIN : Int := -2147483648

/-- Largest value of the C++ type `int` (32 bit). -/
def INT_MAX : Int := 2147483647

/-- Smallest value of `integer = long long int` (64 bit). -/
def INTEGER_MIN : Int := -9223372036854775808

/-- Largest value of `integer = long long int` (64 bit). -/
def INTEGER_MAX : Int := 9223372036854775807

/-- The value `x` is representable in the C++ type `int`. -/
def is_int (x : Int) : Prop := INT_MIN ≤ x ∧ x ≤ INT_MAX

instance (x : Int) : Decidable (is_int x) := by
  unfold is_int; exact inferInstance

/-- The value `s` is representable in the working type `integer`. -/
def is_integer (s : Int) : Prop := INTEGER_MIN ≤ s ∧ s ≤ INTEGER_MAX

instance (s : Int) : Decidable (is_integer s) := by
  unfold is_integer; exact inferInstance

/-- Modelled from the spec: the enumeration `ILP_input::inequality_type`, whose
header `ILP_input.h` is not among the sources; the spec lists the comparison
kinds `≤`, `=`, `≥` and the code names the three enumerators. -/
inductive inequality_type where
  | smaller_equal
  | greater_equal
  | equal
  deriving DecidableEq

/-! ## `lineq_bdd::normal_form` -/

/-- The library function `std::gcd` at type `int`: the greatest common divisor of
`|m|` and `|n|`; the behaviour is undefined when `|m|` or `|n|` is not
representable in `int`, which happens exactly at `INT_MIN`. -/
def std_gcd (m n : Int) : Option Int :=
  if m = INT_MIN ∨ n = INT_MIN then none else some ((Int.gcd m n : Nat) : Int)

/-- The built-in division `a / d` on `int`: truncation towards zero, undefined for
a zero divisor and for the one quotient that is not representable. -/
def int_div (a d : Int) : Option Int :=
  if d = 0 ∨ (a = INT_MIN ∧ d = -1) then none else some (Int.tdiv a d)

/-- The statement `x *= -1.0` on an `int`: `x` is converted to `double` (exactly,
a `double` holds every 32 bit integer), multiplied by `-1.0` and converted back to
`int`; the conversion is undefined when `-x` is not representable. -/
def mul_minus_one (x : Int) : Option Int :=
  if is_int (-x) then some (-x) else none

/-- The loop `for(auto it = begin+1; it != end; ++it) if(*it != 0) d = std::gcd(d, *it);`
over the coefficients after the first. -/
def gcd_loop (d : Int) : List Int → Option Int
  | [] => some d
  | x :: xs =>
    if x ≠ 0 then
      match std_gcd d x with
      | none => none
      | some d1 => gcd_loop d1 xs
    else gcd_loop d xs

/-- The divisor `d` of `normal_form` (lines 66 to 70): the `assert` needs one
coefficient at least, `d` starts as `std::gcd(right_hand_side, *begin)` and the
loop folds the other non-zero coefficients in. -/
def normal_form_divisor (coefficients : List Int) (right_hand_side : Int) : Option Int :=
  match coefficients with
  | [] => none
  | a0 :: rest =>
    match std_gcd right_hand_side a0 with
    | none => none
    | some d => gcd_loop d rest

/-- The `push_back` loop of lines 74 to 76: every entry divided by `d`. -/
def push_back_divided (d : Int) : List Int → Option (List Int)
  | [] => some []
  | x :: xs =>
    match int_div x d with
    | none => none
    | some q =>
      match push_back_divided d xs with
      | none => none
      | some qs => some (q :: qs)

/-- The loop `for(auto& x : c) x *= -1.0;` of lines 79 and 80. -/
def negate_all : List Int → Option (List Int)
  | [] => some []
  | x :: xs =>
    match mul_minus_one x with
    | none => none
    | some y =>
      match negate_all xs with
      | none => none
      | some ys => some (y :: ys)

/-- The function `lineq_bdd::normal_form(begin, end, ineq_type, right_hand_side)`: the
returned vector holds the right-hand side at index 0 and the coefficients after it. -/
def normal_form (coefficients : List Int) (ineq_type : inequality_type)
    (right_hand_side : Int) : Option (List Int × inequality_type) :=
  match normal_form_divisor coefficients right_hand_side with
  | none => none
  | some d =>
    match push_back_divided d (right_hand_side :: coefficients) with
    | none => none
    | some c =>
      match (if ineq_type = inequality_type.greater_equal then negate_all c else some c) with
      | none => none
      | some c1 =>
        some (c1, if ineq_type ≠ inequality_type.greater_equal then ineq_type
                  else inequality_type.smaller_equal)

/-! ## Vocabulary of the statements -/

/-- Greatest common divisor of all entries of a list (zero for the empty list and
for a list of zeros). -/
def gcd_all : List Int → Int
  | [] => 0
  | x :: xs => (Int.gcd x (gcd_all xs) : Nat)

/-- The left-hand side `sum(a_i * x_i)` of a constraint under the assignment `x`. -/
def lhs_value : List Int → (Nat → Int) → Int
  | [], _ => 0
  | a :: rest, x => a * x 0 + lhs_value rest (fun i => x (i + 1))

/-- The constraint `lhs <kind> rhs`. -/
def constraint_holds (kind : inequality_type) (lhs rhs : Int) : Prop :=
  match kind with
  | inequality_type.smaller_equal => lhs ≤ rhs
  | inequality_type.greater_equal => lhs ≥ rhs
  | inequality_type.equal => lhs = rhs

instance (kind : inequality_type) (lhs rhs : Int) : Decidable (constraint_holds kind lhs rhs) := by
  unfold constraint_holds; cases kind <;> exact inferInstance

/-! ## `lineq_bdd::normal_form` as the usual build runs it

At `INT_MIN` the C++ standard gives `normal_form` no defined behaviour, and
`normal_form` above has no result there. The usual build (GCC or Clang with their
standard library, for x86-64) still computes a result: `std::gcd` works on the
unsigned magnitudes and converts the unsigned result back to `int`, which wraps
`2147483648` around to `INT_MIN`, and the conversion of the `double` value
`2147483648.0` to `int` yields `INT_MIN` as well. The definitions below follow the
same lines of the source with these two operations wrapping; division by zero still
has no result (the division instruction traps). -/

/-- A value of type `lineq_bdd_node*` inside one `lineq_bdd`: the null pointer, the
address of one of the two terminal nodes, or the node stored at position `index` of
the table `levels[level]`. -/
inductive node_ptr where
  | null
  | topsink
  | botsink
  | inner (level index : Nat)
  deriving DecidableEq

/-- The struct `lineq_bdd_node` with its default member initialisers; the back
pointer `wrapper_` into the AVL tree carries no information of its own and is left
out. -/
structure lineq_bdd_node where
  lb_ : Int := 0
  ub_ : Int := 0
  zero_kid_ : node_ptr := node_ptr.null
  one_kid_ : node_ptr := node_ptr.null
  deriving DecidableEq

/-- The data members of the class `lineq_bdd`; a table of `levels` is kept as the
list of its nodes in the order of their creation. -/
structure lineq_bdd where
  inverted : List Bool
  coefficients : List Int
  rests : List Int
  rhs : Int
  root_node : node_ptr
  levels : List (List lineq_bdd_node)
  topsink : lineq_bdd_node
  botsink : lineq_bdd_node

/-- The constructor `lineq_bdd::lineq_bdd()`: the member initialiser list gives
`topsink(0, max)` and `botsink(min, -1)`, the vectors start empty; `rhs` and
`root_node`, which the constructor leaves unset, are given `0` and `null`. -/
def lineq_bdd.ctor : lineq_bdd :=
  lineq_bdd.mk [] [] [] 0 node_ptr.null []
    (lineq_bdd_node.mk 0 INTEGER_MAX node_ptr.null node_ptr.null)
    (lineq_bdd_node.mk INTEGER_MIN (-1) node_ptr.null node_ptr.null)

/-- The value `s` lies in the interval `[lb_, ub_]` that the node carries. -/
def lineq_bdd_node.covers (n : lineq_bdd_node) (s : Int) : Prop :=
  n.lb_ ≤ s ∧ s ≤ n.ub_

instance (n : lineq_bdd_node) (s : Int) : Decidable (n.covers s) := by
  unfold lineq_bdd_node.covers; exact inferInstance

/-! ## `lineq_bdd::build_from_inequality`

The header declares `build_from_inequality` and `build_bdd_node`; their bodies are
not among the sources and are modelled on section 4.1 of the specification. -/

/-- Modelled from the spec: the failures of the compiler. "If any coefficient's
magnitude, summed across the constraint, would exceed the working integer type's
range, the operation fails with an overflow error"; a constraint that is not a
normalized one (no right-hand side, or a comparison other than `≤` and `=`) is
malformed input. -/
inductive build_error where
  | overflow_error
  | input_error
  deriving DecidableEq

/-- Modelled from the spec: "lb = sum of negative remaining coefficients", the
least sum that a completion can add. -/
def lb_rest : List Int → Int
  | [] => 0
  | c :: rest => min c 0 + lb_rest rest

/-- Modelled from the spec: "ub = sum of all remaining positive coefficients", the
greatest sum that a completion can add. -/
def ub_rest : List Int → Int
  | [] => 0
  | c :: rest => max c 0 + ub_rest rest

/-- Modelled from the spec: the sum of the magnitudes of the coefficients, which
has to fit the working integer type. -/
def sum_abs : List Int → Int
  | [] => 0
  | c :: rest => |c| + sum_abs rest

/-- Modelled from the spec: the two pruning rules of section 4.1, with
`slack = rhs − current partial sum`. For `≤`: "if ub ≤ (rhs − current partial sum):
every completion satisfies the inequality → route to top sink; if lb > (rhs − current
partial sum): no completion satisfies it → route to bottom sink". For `=` the
"analogous two-sided test against rhs exactly": no completion reaches `rhs` when
`slack` lies outside `[lb, ub]`, every completion does when `lb = ub = slack`. The
compiler supports no third comparison. -/
def sink_test (ineq_type : inequality_type) (lb ub slack : Int) : Option node_ptr :=
  match ineq_type with
  | inequality_type.smaller_equal =>
    if ub ≤ slack then some node_ptr.topsink
    else if lb > slack then some node_ptr.botsink
    else none
  | inequality_type.equal =>
    if lb > slack ∨ ub < slack then some node_ptr.botsink
    else if lb = slack ∧ ub = slack then some node_ptr.topsink
    else none
  | inequality_type.greater_equal => none

/-- Modelled from the spec: the look-up in a level's unique table under the first
key of section 3, the node's "(lb, ub) state at construction time"; section 4.1: "if
an existing node has the identical state, reuse it". -/
def find_node : List lineq_bdd_node → Int → Int → Option Nat
  | [], _, _ => none
  | n :: rest, lb, ub =>
    if n.lb_ = lb ∧ n.ub_ = ub then some 0
    else
      match find_node rest lb ub with
      | none => none
      | some i => some (i + 1)

/-- Modelled from the spec: the look-up in a level's unique table under the second
key of section 3, the node's "(low, high) child identity after construction", which
keeps the invariant "no two distinct node instances at the same level have equal
keys". -/
def find_kids : List lineq_bdd_node → node_ptr → node_ptr → Option Nat
  | [], _, _ => none
  | n :: rest, low, high =>
    if n.zero_kid_ = low ∧ n.one_kid_ = high then some 0
    else
      match find_kids rest low high with
      | none => none
      | some i => some (i + 1)

/-- Modelled from the spec: `build_bdd_node` of section 4.1 (declared in the header,
body not among the sources). `remaining` holds the coefficients `c_i..c_{L-1}` of the
variables still unassigned at `level`, `path_cost` is the current partial sum, and
`lb`, `ub` are the sums of the negative and of the positive remaining coefficients.

1. The two pruning rules compare `lb` and `ub` with `rhs - path_cost` and collapse the
   node to a terminal.
2. Otherwise the node is looked up in the unique table of its level under its state.
   The state is the pair that a node carries by section 3, the "(lower-bound,
   upper-bound) on the achievable completion of the partial sum", that is
   `path_cost + lb` and `path_cost + ub`. The pair `lb`, `ub` alone is the same for
   every node of a level and cannot be the key: the constraints
   `x2 + x3 + x4 <= 1` and `x2 + x3 + x4 <= 0`, reached at level 1 of
   `x1 + x2 + x3 + x4 <= 1` with partial sums 0 and 1, are different and both unpruned.
   Section 4.1 says of this dedup that it "keeps the diagram size polynomial in the
   sum of absolute coefficients", the number of partial sums, and the header says of
   the member `ub_` that it "initially also serves as cost of path from root".
3. On a miss the low child (variable false, partial sum unchanged) and the high child
   (variable true, partial sum increased by `c_i`) are built.
4. The finished node is looked up under its pair of children, and an existing node
   with the same children is reused; only otherwise a new node enters the table. This
   keeps the diagram reduced (sections 3 and 8).

The result is the pointer to the node and the tables after the call. -/
def build_bdd_node (rhs : Int) (ineq_type : inequality_type) :
    List Int → Int → Nat → List (List lineq_bdd_node) →
      node_ptr × List (List lineq_bdd_node)
  | [], path_cost, _, levels =>
    match sink_test ineq_type 0 0 (rhs - path_cost) with
    | some sink => (sink, levels)
    | none => (node_ptr.null, levels)
  | c :: rest, path_cost, level, levels =>
    match sink_test ineq_type (lb_rest (c :: rest)) (ub_rest (c :: rest)) (rhs - path_cost) with
    | some sink => (sink, levels)
    | none =>
      match find_node (levels.getD level []) (path_cost + lb_rest (c :: rest))
          (path_cost + ub_rest (c :: rest)) with
      | some i => (node_ptr.inner level i, levels)
      | none =>
        let low := build_bdd_node rhs ineq_type rest path_cost (level + 1) levels
        let high := build_bdd_node rhs ineq_type rest (path_cost + c) (level + 1) low.2
        match find_kids (high.2.getD level []) low.1 high.1 with
        | some i => (node_ptr.inner level i, high.2)
        | none =>
          (node_ptr.inner level (high.2.getD level []).length,
            high.2.set level
              (high.2.getD level [] ++
                [lineq_bdd_node.mk (path_cost + lb_rest (c :: rest))
                  (path_cost + ub_rest (c :: rest)) low.1 high.1]))

/-- Modelled from the spec: the upper bounds of section 4.1 level by level, "ub = sum
of all remaining positive coefficients (recomputed incrementally as each level is
consumed)"; entry `l` belongs to the coefficients from level `l` on. -/
def rests_of : List Int → List Int
  | [] => [0]
  | c :: rest => ub_rest (c :: rest) :: rests_of rest

/-- Modelled from the spec: `build_from_inequality(nf, ineq_type)` of section 4.1.
The vector `nf` is a normal form, right-hand side at index 0 and coefficients after
it; one empty unique table is set up per variable and "root is the node produced at
level 0", reached with partial sum `0`. The pruning rules of the specification treat
a negative coefficient through `lb`, so no variable is flagged in `inverted`;
`rests` keeps the upper bounds of the levels. -/
def build_from_inequality (nf : List Int) (ineq_type : inequality_type) :
    Except build_error lineq_bdd :=
  match nf with
  | [] => Except.error build_error.input_error
  | rhs :: coefficients =>
    if ineq_type = inequality_type.greater_equal then Except.error build_error.input_error
    else if sum_abs coefficients > INTEGER_MAX then Except.error build_error.overflow_error
    else
      let built := build_bdd_node rhs ineq_type coefficients 0 0
        (List.replicate coefficients.length [])
      Except.ok (lineq_bdd.mk (List.replicate coefficients.length false) coefficients
        (rests_of coefficients) rhs built.1 built.2
        lineq_bdd.ctor.topsink lineq_bdd.ctor.botsink)

/-- Following the children from `node` under the assignment `x`: at a node of level
`l` the high child `one_kid_` is taken when `x l` is true and the low child
`zero_kid_` otherwise; the walk ends at a terminal. `fuel` bounds the number of
inner nodes visited. -/
def follow (levels : List (List lineq_bdd_node)) (x : Nat → Bool) :
    Nat → node_ptr → Option node_ptr
  | _, node_ptr.topsink => some node_ptr.topsink
  | _, node_ptr.botsink => some node_ptr.botsink
  | _, node_ptr.null => none
  | 0, node_ptr.inner _ _ => none
  | fuel + 1, node_ptr.inner l i =>
    match (levels.getD l [])[i]? with
    | none => none
    | some n => follow levels x fuel (if x l then n.one_kid_ else n.zero_kid_)

/-- The terminal that the assignment `x` reaches from the root of the diagram; a
path holds one inner node per level at most, so the number of levels is fuel enough. -/
def lineq_bdd.evaluate (bdd : lineq_bdd) (x : Nat → Bool) : Option node_ptr :=
  follow bdd.levels x bdd.levels.length bdd.root_node

/-- The integer value of a boolean variable. -/
def bool_value (v : Bool) : Int := if v then 1 else 0

/-! ## Vocabulary of the correctness proof of the compiler -/

/-- The sum that the variables from level `l` on add under the assignment `x`, for
the remaining coefficients `cs`. -/
def completion (cs : List Int) (x : Nat → Bool) (l : Nat) : Int :=
  lhs_value cs (fun j => bool_value (x (l + j)))

/-- The pointer `ptr` stands for the constraint `p + completion <kind> rhs` over the
remaining coefficients `cs` of the levels from `l` on: the walk from `ptr` reaches
`topsink` under the assignments that satisfy it and `botsink` under the others. -/
@[reducible]
def ptr_correct (rhs : Int) (kind : inequality_type) (levels : List (List lineq_bdd_node))
    (ptr : node_ptr) (cs : List Int) (p : Int) (l : Nat) : Prop :=
  ∀ x : Nat → Bool, follow levels x cs.length ptr =
    some (if constraint_holds kind (p + completion cs x l) rhs then node_ptr.topsink
          else node_ptr.botsink)

/-- Every node of `levels` is found at the same place in `levels1`. -/
@[reducible]
def tables_extend (levels levels1 : List (List lineq_bdd_node)) : Prop :=
  ∀ (l i : Nat) (n : lineq_bdd_node),
    (levels.getD l [])[i]? = some n → (levels1.getD l [])[i]? = some n

/-- Every node stored in `levels` carries the state of some partial sum `p` at its
level, and its two children stand for the constraint after the decision. -/
@[reducible]
def tables_sound (rhs : Int) (kind : inequality_type) (coeffs : List Int)
    (levels : List (List lineq_bdd_node)) : Prop :=
  ∀ (l i : Nat) (n : lineq_bdd_node), (levels.getD l [])[i]? = some n →
    ∃ c rest p, coeffs.drop l = c :: rest ∧
      n.lb_ = p + lb_rest (c :: rest) ∧ n.ub_ = p + ub_rest (c :: rest) ∧
      ptr_correct rhs kind levels n.zero_kid_ rest p (l + 1) ∧
      ptr_correct rhs kind levels n.one_kid_ rest (p + c) (l + 1)

/-- Reducedness (section 8): no two distinct nodes of a level have identical
(low, high) children. -/
@[reducible]
def tables_reduced (levels : List (List lineq_bdd_node)) : Prop :=
  ∀ (l i j : Nat) (n m : lineq_bdd_node),
    (levels.getD l [])[i]? = some n → (levels.getD l [])[j]? = some m →
    n.zero_kid_ = m.zero_kid_ → n.one_kid_ = m.one_kid_ → i = j


/-! ## Auxiliary facts on `gcd_all` -/

theorem gcd_all_nonneg (l : List Int) : 0 ≤ gcd_all l := by
  cases l with
  | nil => simp [gcd_all]
  | cons x xs => simp only [gcd_all]; exact Int.natCast_nonneg _

theorem gcd_all_dvd (l : List Int) : ∀ x ∈ l, gcd_all l ∣ x := by
  induction l with
  | nil => intro x hx; cases hx
  | cons y ys ih =>
    intro x hx
    simp only [gcd_all]
    rcases List.mem_cons.mp hx with rfl | hx
    · exact Int.gcd_dvd_left
    · exact Int.gcd_dvd_right.trans (ih x hx)

theorem dvd_gcd_all (l : List Int) (k : Int) (h : ∀ x ∈ l, k ∣ x) : k ∣ gcd_all l := by
  induction l with
  | nil => simp [gcd_all]
  | cons y ys ih =>
    simp only [gcd_all]
    exact Int.dvd_gcd (h y (List.mem_cons_self _ _))
      (ih (fun x hx => h x (List.mem_cons_of_mem _ hx)))

theorem gcd_all_eq_zero_iff (l : List Int) : gcd_all l = 0 ↔ ∀ x ∈ l, x = 0 := by
  induction l with
  | nil => simp [gcd_all]
  | cons y ys ih =>
    simp only [gcd_all, List.mem_cons, forall_eq_or_imp]
    rw [← ih]
    constructor
    · intro h
      have h1 : Int.gcd y (gcd_all ys) = 0 := by exact_mod_cast h
      exact Int.gcd_eq_zero_iff.mp h1
    · intro h
      have h1 : Int.gcd y (gcd_all ys) = 0 := Int.gcd_eq_zero_iff.mpr h
      exact_mod_cast h1

theorem gcd_all_pos (l : List Int) (h : ∃ x ∈ l, x ≠ 0) : 0 < gcd_all l := by
  rcases lt_or_eq_of_le (gcd_all_nonneg l) with h1 | h1
  · exact h1
  · obtain ⟨x, hx, hx0⟩ := h
    exact absurd ((gcd_all_eq_zero_iff l).mp h1.symm x hx) hx0

/-! ## What each loop of `normal_form` computes -/

theorem std_gcd_eq (m n : Int) (hm : m ≠ INT_MIN) (hn : n ≠ INT_MIN) :
    std_gcd m n = some ((Int.gcd m n : Nat) : Int) := by
  simp [std_gcd, hm, hn]

theorem gcd_loop_eq (xs : List Int) : ∀ d : Int, 0 ≤ d → (∀ x ∈ xs, x ≠ INT_MIN) →
    gcd_loop d xs = some ((Int.gcd d (gcd_all xs) : Nat) : Int) := by
  induction xs with
  | nil =>
    intro d hd _
    simp only [gcd_loop, gcd_all, Int.gcd_zero_right]
    rw [Int.natAbs_of_nonneg hd]
  | cons y ys ih =>
    intro d hd h
    have hdm : d ≠ INT_MIN := by unfold INT_MIN; omega
    have hy : y ≠ INT_MIN := h y (List.mem_cons_self _ _)
    have hys : ∀ x ∈ ys, x ≠ INT_MIN := fun x hx => h x (List.mem_cons_of_mem _ hx)
    by_cases h0 : y = 0
    · subst h0
      simp only [gcd_loop, ne_eq, not_true_eq_false, if_false, gcd_all]
      rw [ih d hd hys]
      simp [Int.gcd_zero_left, abs_of_nonneg (gcd_all_nonneg ys)]
    · simp only [gcd_loop, ne_eq, h0, not_false_eq_true, if_true, std_gcd_eq d y hdm hy, gcd_all]
      rw [ih _ (Int.natCast_nonneg _) hys, Int.gcd_assoc]

theorem normal_form_divisor_eq (a : List Int) (b : Int) (hne : a ≠ [])
    (hmin : ∀ x ∈ b :: a, x ≠ INT_MIN) :
    normal_form_divisor a b = some (gcd_all (b :: a)) := by
  cases a with
  | nil => exact absurd rfl hne
  | cons a0 rest =>
    have hb : b ≠ INT_MIN := hmin b (List.mem_cons_self _ _)
    have ha0 : a0 ≠ INT_MIN := hmin a0 (by simp)
    have hr : ∀ x ∈ rest, x ≠ INT_MIN := fun x hx => hmin x (by simp [hx])
    simp only [normal_form_divisor, std_gcd_eq b a0 hb ha0, gcd_all]
    rw [gcd_loop_eq rest _ (Int.natCast_nonneg _) hr, Int.gcd_assoc]

theorem int_div_eq (x d : Int) (hd : 0 < d) (hdvd : d ∣ x) : int_div x d = some (x / d) := by
  have h1 : ¬ (d = 0 ∨ (x = INT_MIN ∧ d = -1)) := by omega
  simp only [int_div, h1, if_false, Int.tdiv_eq_ediv_of_dvd hdvd]

theorem push_back_divided_eq (d : Int) (hd : 0 < d) (l : List Int) (hdvd : ∀ x ∈ l, d ∣ x) :
    push_back_divided d l = some (l.map (fun x => x / d)) := by
  induction l with
  | nil => rfl
  | cons y ys ih =>
    simp only [push_back_divided, int_div_eq y d hd (hdvd y (List.mem_cons_self _ _)),
      ih (fun x hx => hdvd x (List.mem_cons_of_mem _ hx)), List.map_cons]

theorem negate_all_eq (l : List Int) (h : ∀ x ∈ l, is_int (-x)) :
    negate_all l = some (l.map (fun x => -x)) := by
  induction l with
  | nil => rfl
  | cons y ys ih =>
    simp only [negate_all, mul_minus_one, h y (List.mem_cons_self _ _), if_true,
      ih (fun x hx => h x (List.mem_cons_of_mem _ hx)), List.map_cons]

/-- Dividing an `int` other than `INT_MIN` by a positive divisor leaves a value
between `-INT_MAX` and `INT_MAX`. -/
theorem div_bounds (x d : Int) (hd : 0 < d) (hx : is_int x) (hm : x ≠ INT_MIN) :
    -2147483647 ≤ x / d ∧ x / d ≤ 2147483647 := by
  unfold is_int INT_MIN INT_MAX at *
  have h1 : x / d ≤ 2147483647 := by
    have : x / d < 2147483648 := Int.ediv_lt_of_lt_mul hd (by omega)
    omega
  have h2 : -2147483647 ≤ x / d := by
    apply Int.le_ediv_of_mul_le hd
    omega
  exact ⟨h2, h1⟩

theorem is_int_of_bounds (q : Int) (h : -2147483647 ≤ q ∧ q ≤ 2147483647) :
    (is_int q ∧ q ≠ INT_MIN) ∧ (is_int (-q) ∧ -q ≠ INT_MIN) := by
  unfold is_int INT_MIN INT_MAX
  omega

theorem is_int_neg_div (x d : Int) (hd : 0 < d) (hx : is_int x) (hm : x ≠ INT_MIN) :
    is_int (-(x / d)) :=
  (is_int_of_bounds _ (div_bounds x d hd hx hm)).2.1

/-- The result of `normal_form` on well-formed input: the entries divided by their
gcd, negated for `greater_equal`, and the comparison with `greater_equal` turned
into `smaller_equal`. -/
theorem normal_form_eq (a : List Int) (kind : inequality_type) (b : Int) (hne : a ≠ [])
    (hint : ∀ x ∈ b :: a, is_int x) (hmin : ∀ x ∈ b :: a, x ≠ INT_MIN)
    (hnz : ∃ x ∈ b :: a, x ≠ 0) :
    normal_form a kind b =
      some (if kind = inequality_type.greater_equal then
              (b :: a).map (fun x => -(x / gcd_all (b :: a)))
            else (b :: a).map (fun x => x / gcd_all (b :: a)),
            if kind ≠ inequality_type.greater_equal then kind
            else inequality_type.smaller_equal) := by
  have hg : 0 < gcd_all (b :: a) := gcd_all_pos _ hnz
  have hneg : ∀ x ∈ (b :: a).map (fun x => x / gcd_all (b :: a)), is_int (-x) := by
    intro y hy
    obtain ⟨x, hx, rfl⟩ := List.mem_map.mp hy
    exact is_int_neg_div x _ hg (hint x hx) (hmin x hx)
  unfold normal_form
  simp only [normal_form_divisor_eq a b hne hmin,
    push_back_divided_eq _ hg (b :: a) (gcd_all_dvd (b :: a))]
  by_cases hk : kind = inequality_type.greater_equal
  · simp only [hk, if_true, negate_all_eq _ hneg, List.map_map]
    rfl
  · simp only [hk, if_false]

theorem gcd_loop_some_imp (xs : List Int) : ∀ d d1 : Int, gcd_loop d xs = some d1 →
    ∀ x ∈ xs, x ≠ INT_MIN := by
  induction xs with
  | nil => intro _ _ _ x hx; cases hx
  | cons y ys ih =>
    intro d d1 h x hx
    by_cases h0 : y = 0
    · subst h0
      simp only [gcd_loop, ne_eq, not_true_eq_false, if_false] at h
      rcases List.mem_cons.mp hx with rfl | hx
      · unfold INT_MIN; omega
      · exact ih d d1 h x hx
    · simp only [gcd_loop, ne_eq, h0, not_false_eq_true, if_true] at h
      by_cases hm : d = INT_MIN ∨ y = INT_MIN
      · simp [std_gcd, hm] at h
      · simp only [std_gcd, hm, if_false] at h
        rcases List.mem_cons.mp hx with rfl | hx
        · exact fun hc => hm (Or.inr hc)
        · exact ih _ d1 h x hx

theorem normal_form_divisor_some_imp (a : List Int) (b d : Int)
    (h : normal_form_divisor a b = some d) : a ≠ [] ∧ ∀ x ∈ b :: a, x ≠ INT_MIN := by
  cases a with
  | nil => simp [normal_form_divisor] at h
  | cons a0 rest =>
    refine ⟨by simp, ?_⟩
    by_cases hm : b = INT_MIN ∨ a0 = INT_MIN
    · simp [normal_form_divisor, std_gcd, hm] at h
    · simp only [normal_form_divisor, std_gcd, hm, if_false] at h
      intro x hx
      rcases List.mem_cons.mp hx with rfl | hx
      · exact fun hc => hm (Or.inl hc)
      · rcases List.mem_cons.mp hx with rfl | hx
        · exact fun hc => hm (Or.inr hc)
        · exact gcd_loop_some_imp rest _ d h x hx

/-- Whenever `normal_form` has a defined result, there is a coefficient, no entry
is `INT_MIN` and some entry is not zero. -/
theorem normal_form_some_imp (a : List Int) (kind : inequality_type) (b : Int)
    (r : List Int × inequality_type) (h : normal_form a kind b = some r) :
    a ≠ [] ∧ (∀ x ∈ b :: a, x ≠ INT_MIN) ∧ ∃ x ∈ b :: a, x ≠ 0 := by
  cases hd : normal_form_divisor a b with
  | none => simp [normal_form, hd] at h
  | some d =>
    obtain ⟨hne, hmin⟩ := normal_form_divisor_some_imp a b d hd
    refine ⟨hne, hmin, ?_⟩
    by_contra hall
    push_neg at hall
    have h0 : gcd_all (b :: a) = 0 := (gcd_all_eq_zero_iff _).mpr hall
    rw [normal_form_divisor_eq a b hne hmin, h0] at hd
    have hd0 : d = 0 := by injection hd with hd; exact hd.symm
    subst hd0
    simp [normal_form, normal_form_divisor_eq a b hne hmin, h0, push_back_divided, int_div] at h
/-- A list whose entries are, up to sign, the entries of `l` divided by the gcd of
`l` has gcd one. -/
theorem gcd_all_eq_one_of (l l1 : List Int) (hg : 0 < gcd_all l)
    (h : ∀ x ∈ l, ∃ y ∈ l1, y * gcd_all l = x ∨ y * gcd_all l = -x) : gcd_all l1 = 1 := by
  have hdvd : gcd_all l1 * gcd_all l ∣ gcd_all l := by
    apply dvd_gcd_all
    intro x hx
    obtain ⟨y, hy, hxy⟩ := h x hx
    have h1 : gcd_all l1 * gcd_all l ∣ y * gcd_all l :=
      mul_dvd_mul_right (gcd_all_dvd l1 y hy) _
    rcases hxy with hxy | hxy
    · rw [hxy] at h1; exact h1
    · rw [hxy] at h1; exact (dvd_neg.mp h1)
  have h1 : gcd_all l1 * gcd_all l ∣ 1 * gcd_all l := by rwa [one_mul]
  have h2 : gcd_all l1 ∣ 1 := (mul_dvd_mul_iff_right (ne_of_gt hg)).mp h1
  exact Int.eq_one_of_dvd_one (gcd_all_nonneg l1) h2

theorem gcd_all_normalized (a : List Int) (kind : inequality_type) (b : Int)
    (hnz : ∃ x ∈ b :: a, x ≠ 0) :
    gcd_all (if kind = inequality_type.greater_equal then
              (b :: a).map (fun x => -(x / gcd_all (b :: a)))
            else (b :: a).map (fun x => x / gcd_all (b :: a))) = 1 := by
  have hg : 0 < gcd_all (b :: a) := gcd_all_pos _ hnz
  apply gcd_all_eq_one_of (b :: a) _ hg
  intro x hx
  have hd : x / gcd_all (b :: a) * gcd_all (b :: a) = x :=
    Int.ediv_mul_cancel (gcd_all_dvd _ x hx)
  by_cases hk : kind = inequality_type.greater_equal
  · refine ⟨-(x / gcd_all (b :: a)), ?_, Or.inr ?_⟩
    · simp only [hk, if_true]
      exact List.mem_map.mpr ⟨x, hx, rfl⟩
    · rw [neg_mul, hd]
  · refine ⟨x / gcd_all (b :: a), ?_, Or.inl hd⟩
    simp only [hk, if_false]
    exact List.mem_map.mpr ⟨x, hx, rfl⟩

/-! ## The claims on `normal_form` -/

/-- C1 (as stated, refuted): the right-hand side `INT_MIN` with the single coefficient
`0` is a well-formed input that is not all zero, yet `normal_form` has no defined
result on it for the comparison `smaller_equal`, since `std::gcd(INT_MIN, 0)` is
undefined; in particular the fold does not compute the gcd `2147483648` and the
vector `[-1, 0]` of the claim is not returned. -/
theorem normal_form_int_min_rhs_undefined :
    (∀ x ∈ [INT_MIN, 0], is_int x) ∧ (∃ x ∈ [INT_MIN, 0], x ≠ 0) ∧
    gcd_all [INT_MIN, 0] = 2147483648 ∧
    normal_form_divisor [0] INT_MIN ≠ some (gcd_all [INT_MIN, 0]) ∧
    normal_form [0] inequality_type.smaller_equal INT_MIN = none ∧
    normal_form [0] inequality_type.smaller_equal INT_MIN ≠
      some (INT_MIN / gcd_all [INT_MIN, 0] :: [0].map (fun x => x / gcd_all [INT_MIN, 0]),
            inequality_type.smaller_equal) := by
  decide

/-- C1 (amended): for a non-empty coefficient list `a` and a right-hand side `b` of
`int` values, none of them `INT_MIN` and not all zero, and the comparison
`smaller_equal` or `equal`, the number `g = gcd_all (b :: a)` is positive, divides
every entry and is divided by every common divisor, the fold of the code computes
exactly `g`, and `normal_form` returns the vector `b/g, a_0/g, ..., a_(n-1)/g` of
length `n+1` with the comparison unchanged. -/
theorem normal_form_divides_by_gcd (a : List Int) (b : Int) (kind : inequality_type)
    (hne : a ≠ []) (hint : ∀ x ∈ b :: a, is_int x) (hmin : ∀ x ∈ b :: a, x ≠ INT_MIN)
    (hnz : ∃ x ∈ b :: a, x ≠ 0)
    (hk : kind = inequality_type.smaller_equal ∨ kind = inequality_type.equal) :
    0 < gcd_all (b :: a) ∧ (∀ x ∈ b :: a, gcd_all (b :: a) ∣ x) ∧
    (∀ k : Int, (∀ x ∈ b :: a, k ∣ x) → k ∣ gcd_all (b :: a)) ∧
    normal_form_divisor a b = some (gcd_all (b :: a)) ∧
    normal_form a kind b =
      some (b / gcd_all (b :: a) :: a.map (fun x => x / gcd_all (b :: a)), kind) ∧
    (b / gcd_all (b :: a) :: a.map (fun x => x / gcd_all (b :: a))).length = a.length + 1 := by
  refine ⟨gcd_all_pos _ hnz, gcd_all_dvd _, dvd_gcd_all _, normal_form_divisor_eq a b hne hmin,
    ?_, by simp⟩
  have hk1 : kind ≠ inequality_type.greater_equal := by
    rcases hk with rfl | rfl <;> decide
  rw [normal_form_eq a kind b hne hint hmin hnz]
  simp [hk1]

/-- C1 (witness): the coefficients `[2, 2]` with right-hand side `2` and comparison
`equal` satisfy the hypotheses, and the result is `([1, 1, 1], equal)`. -/
theorem normal_form_divides_by_gcd_witness :
    (∀ x ∈ [2, 2, 2], is_int x) ∧ (∀ x ∈ [2, 2, 2], x ≠ INT_MIN) ∧
    (∃ x ∈ [2, 2, 2], x ≠ 0) ∧
    normal_form [2, 2] inequality_type.equal 2 = some ([1, 1, 1], inequality_type.equal) :=
  ⟨by decide, by decide, by decide,
    (normal_form_divides_by_gcd [2, 2] 2 inequality_type.equal (by decide) (by decide)
      (by decide) (by decide) (by decide)).2.2.2.2.1.trans (by decide)⟩

/-- C2: for a non-empty coefficient list and a right-hand side of `int` values, none
of them `INT_MIN` and not all zero, `normal_form` with the comparison `greater_equal`
returns `smaller_equal` and the vector whose every entry, index 0 included, is the
negation of the input entry divided by the gcd; and no input at all makes
`normal_form` return the comparison `greater_equal`. -/
theorem normal_form_greater_equal (a : List Int) (b : Int)
    (hne : a ≠ []) (hint : ∀ x ∈ b :: a, is_int x) (hmin : ∀ x ∈ b :: a, x ≠ INT_MIN)
    (hnz : ∃ x ∈ b :: a, x ≠ 0) :
    normal_form a inequality_type.greater_equal b =
      some (-(b / gcd_all (b :: a)) :: a.map (fun x => -(x / gcd_all (b :: a))),
            inequality_type.smaller_equal) ∧
    ∀ (a1 : List Int) (kind1 : inequality_type) (b1 : Int) (c : List Int) (t : inequality_type),
      normal_form a1 kind1 b1 = some (c, t) → t ≠ inequality_type.greater_equal := by
  constructor
  · rw [normal_form_eq a _ b hne hint hmin hnz]
    simp
  · intro a1 kind1 b1 c t h
    unfold normal_form at h
    cases hd : normal_form_divisor a1 b1 with
    | none => simp [hd] at h
    | some d =>
      cases hp : push_back_divided d (b1 :: a1) with
      | none => simp [hd, hp] at h
      | some c0 =>
        simp only [hd, hp] at h
        split at h
        · cases h
        · injection h with h
          injection h with _ ht
          rw [← ht]
          cases kind1 <;> decide

/-- C2 (witness): `4*x1 - 6*x3 >= 8` becomes `-2*x1 + 3*x3 <= -4`. -/
theorem normal_form_greater_equal_witness :
    (∀ x ∈ [8, 4, 0, -6], is_int x) ∧ (∀ x ∈ [8, 4, 0, -6], x ≠ INT_MIN) ∧
    (∃ x ∈ [8, 4, 0, -6], x ≠ 0) ∧
    normal_form [4, 0, -6] inequality_type.greater_equal 8 =
      some ([-4, -2, 0, 3], inequality_type.smaller_equal) :=
  ⟨by decide, by decide, by decide,
    (normal_form_greater_equal [4, 0, -6] 8 (by decide) (by decide) (by decide)
      (by decide)).1.trans (by decide)⟩
/-- The entries of the vector that `normal_form` returns on well-formed input are
`int` values other than `INT_MIN`, and not all of them are zero. -/
theorem normalized_entries (a : List Int) (kind : inequality_type) (b : Int)
    (hint : ∀ x ∈ b :: a, is_int x) (hmin : ∀ x ∈ b :: a, x ≠ INT_MIN)
    (hnz : ∃ x ∈ b :: a, x ≠ 0) :
    (∀ y ∈ (if kind = inequality_type.greater_equal then
              (b :: a).map (fun x => -(x / gcd_all (b :: a)))
            else (b :: a).map (fun x => x / gcd_all (b :: a))),
        is_int y ∧ y ≠ INT_MIN) ∧
    ∃ y ∈ (if kind = inequality_type.greater_equal then
              (b :: a).map (fun x => -(x / gcd_all (b :: a)))
            else (b :: a).map (fun x => x / gcd_all (b :: a))), y ≠ 0 := by
  have hg : 0 < gcd_all (b :: a) := gcd_all_pos _ hnz
  have hq := fun x hx => is_int_of_bounds _ (div_bounds x _ hg (hint x hx) (hmin x hx))
  have hq0 : ∀ x ∈ b :: a, x ≠ 0 → x / gcd_all (b :: a) ≠ 0 := by
    intro x hx hx0 hc
    have := Int.ediv_mul_cancel (gcd_all_dvd _ x hx)
    rw [hc, zero_mul] at this
    exact hx0 this.symm
  obtain ⟨x0, hx0, hx00⟩ := hnz
  by_cases hk : kind = inequality_type.greater_equal
  · simp only [hk, if_true]
    constructor
    · intro y hy
      obtain ⟨x, hx, rfl⟩ := List.mem_map.mp hy
      exact (hq x hx).2
    · exact ⟨_, List.mem_map.mpr ⟨x0, hx0, rfl⟩, neg_ne_zero.mpr (hq0 x0 hx0 hx00)⟩
  · simp only [hk, if_false]
    constructor
    · intro y hy
      obtain ⟨x, hx, rfl⟩ := List.mem_map.mp hy
      exact (hq x hx).1
    · exact ⟨_, List.mem_map.mpr ⟨x0, hx0, rfl⟩, hq0 x0 hx0 hx00⟩

/-- C4: `normal_form` is idempotent. Whenever `normal_form` applied to a coefficient
list `a` and a right-hand side `b` of `int` values returns `(c, t)`, the vector `c`
has a head `r` (the new right-hand side) and a tail `cs` (the new coefficients), and
`normal_form` applied to `cs`, `t` and `r` returns exactly `(c, t)` again. -/
theorem normal_form_idempotent (a : List Int) (kind : inequality_type) (b : Int)
    (c : List Int) (t : inequality_type) (hint : ∀ x ∈ b :: a, is_int x)
    (h : normal_form a kind b = some (c, t)) :
    ∃ r cs, c = r :: cs ∧ normal_form cs t r = some (c, t) := by
  obtain ⟨hne, hmin, hnz⟩ := normal_form_some_imp a kind b _ h
  have heq := normal_form_eq a kind b hne hint hmin hnz
  rw [h] at heq
  injection heq with heq
  injection heq with hc ht
  obtain ⟨hent, hnz1⟩ := normalized_entries a kind b hint hmin hnz
  have hg1 := gcd_all_normalized a kind b hnz
  rw [← hc] at hent hnz1 hg1
  have ht1 : t ≠ inequality_type.greater_equal := by
    rw [ht]; cases kind <;> decide
  have hlen : c.length = a.length + 1 := by
    rw [hc]; split <;> simp
  cases c with
  | nil => simp at hlen
  | cons r cs =>
    refine ⟨r, cs, rfl, ?_⟩
    have hcs : cs ≠ [] := by
      intro hc0
      subst hc0
      simp only [List.length_cons, List.length_nil] at hlen
      exact hne (List.length_eq_zero.mp (by omega))
    rw [normal_form_eq cs t r hcs (fun y hy => (hent y hy).1) (fun y hy => (hent y hy).2) hnz1,
      hg1]
    simp [ht1]

/-- C4 (witness): `4*x1 - 6*x3 >= 8` normalises to `([-4, -2, 0, 3], smaller_equal)`,
and normalising `-2*x1 + 3*x3 <= -4` returns the same pair. -/
theorem normal_form_idempotent_witness :
    normal_form [4, 0, -6] inequality_type.greater_equal 8 =
      some ([-4, -2, 0, 3], inequality_type.smaller_equal) ∧
    ∃ r cs, [-4, -2, 0, 3] = r :: cs ∧
      normal_form cs inequality_type.smaller_equal r =
        some ([-4, -2, 0, 3], inequality_type.smaller_equal) :=
  ⟨by decide,
    normal_form_idempotent [4, 0, -6] inequality_type.greater_equal 8 [-4, -2, 0, 3]
      inequality_type.smaller_equal (by decide) (by decide)⟩
theorem gcd_all_map_mul (k : Int) (hk : 0 ≤ k) (l : List Int) :
    gcd_all (l.map (fun x => k * x)) = k * gcd_all l := by
  induction l with
  | nil => simp [gcd_all]
  | cons y ys ih =>
    simp only [List.map_cons, gcd_all, ih, Int.gcd_mul_left, Nat.cast_mul,
      Int.natCast_natAbs, abs_of_nonneg hk]

theorem is_int_of_scaled (k x : Int) (hk : 1 ≤ k) (h : is_int (k * x)) (hm : k * x ≠ INT_MIN) :
    is_int x ∧ x ≠ INT_MIN := by
  unfold is_int INT_MIN INT_MAX at *
  have h1 : 0 ≤ x → x ≤ k * x := by intro h0; nlinarith
  have h2 : x ≤ 0 → k * x ≤ x := by intro h0; nlinarith
  rcases le_total 0 x with h0 | h0
  · have := h1 h0; omega
  · have := h2 h0; omega

/-- C5 (as stated, refuted): with `k = 2`, the coefficient `-1073741824` and the
right-hand side `0`, both the constraint and its multiple by `k` are made of `int`
values and are not all zero, yet `normal_form` has a result for the constraint and
none for its multiple, whose coefficient is `INT_MIN`. -/
theorem normal_form_scale_fails_at_int_min :
    (∀ x ∈ [0, -1073741824], is_int x ∧ is_int (2 * x)) ∧
    normal_form [-1073741824] inequality_type.smaller_equal 0 =
      some ([0, -1], inequality_type.smaller_equal) ∧
    normal_form ([-1073741824].map (fun x => 2 * x)) inequality_type.smaller_equal (2 * 0) ≠
      normal_form [-1073741824] inequality_type.smaller_equal 0 := by
  decide

/-- C5 (amended): `normal_form` is canonical under positive scaling as long as the
scaled constraint is still made of `int` values other than `INT_MIN`: for `k >= 1`, a
non-empty coefficient list `a` and a right-hand side `b`, not all zero, such that
every `k * a_i` and `k * b` is an `int` other than `INT_MIN`, `normal_form` returns
for `(k*a, kind, k*b)` the vector and comparison that it returns for `(a, kind, b)`. -/
theorem normal_form_scale (k : Int) (hk : 1 ≤ k) (a : List Int) (kind : inequality_type)
    (b : Int) (hne : a ≠ []) (hint : ∀ x ∈ b :: a, is_int (k * x))
    (hmin : ∀ x ∈ b :: a, k * x ≠ INT_MIN) (hnz : ∃ x ∈ b :: a, x ≠ 0) :
    ∃ r, normal_form a kind b = some r ∧
      normal_form (a.map (fun x => k * x)) kind (k * b) = some r := by
  have hk0 : 0 < k := by omega
  have hs := fun x hx => is_int_of_scaled k x hk (hint x hx) (hmin x hx)
  refine ⟨_, normal_form_eq a kind b hne (fun x hx => (hs x hx).1) (fun x hx => (hs x hx).2) hnz,
    ?_⟩
  have hl : k * b :: a.map (fun x => k * x) = (b :: a).map (fun x => k * x) := rfl
  have hne1 : a.map (fun x => k * x) ≠ [] := by simpa using hne
  have hint1 : ∀ y ∈ k * b :: a.map (fun x => k * x), is_int y := by
    rw [hl]; intro y hy
    obtain ⟨x, hx, rfl⟩ := List.mem_map.mp hy
    exact hint x hx
  have hmin1 : ∀ y ∈ k * b :: a.map (fun x => k * x), y ≠ INT_MIN := by
    rw [hl]; intro y hy
    obtain ⟨x, hx, rfl⟩ := List.mem_map.mp hy
    exact hmin x hx
  have hnz1 : ∃ y ∈ k * b :: a.map (fun x => k * x), y ≠ 0 := by
    obtain ⟨x, hx, hx0⟩ := hnz
    rw [hl]
    exact ⟨k * x, List.mem_map.mpr ⟨x, hx, rfl⟩, mul_ne_zero (ne_of_gt hk0) hx0⟩
  rw [normal_form_eq _ kind _ hne1 hint1 hmin1 hnz1, hl, gcd_all_map_mul k (le_of_lt hk0)]
  simp only [List.map_map, Function.comp_def, Int.mul_ediv_mul_of_pos _ _ hk0]

/-- C5 (witness): `k = 3` and the constraint `2*x1 + 4*x2 >= 6`. -/
theorem normal_form_scale_witness :
    (∀ x ∈ [6, 2, 4], is_int (3 * x)) ∧ (∀ x ∈ [6, 2, 4], 3 * x ≠ INT_MIN) ∧
    ∃ r, normal_form [2, 4] inequality_type.greater_equal 6 = some r ∧
      normal_form ([2, 4].map (fun x => 3 * x)) inequality_type.greater_equal (3 * 6) = some r :=
  ⟨by decide, by decide,
    normal_form_scale 3 (by decide) [2, 4] inequality_type.greater_equal 6 (by decide)
      (by decide) (by decide) (by decide)⟩

theorem lhs_value_map_div (g : Int) (a : List Int) (h : ∀ y ∈ a, g ∣ y) :
    ∀ x : Nat → Int, lhs_value (a.map (fun y => y / g)) x * g = lhs_value a x := by
  induction a with
  | nil => intro x; simp [lhs_value]
  | cons y ys ih =>
    intro x
    simp only [List.map_cons, lhs_value, add_mul]
    rw [ih (fun z hz => h z (List.mem_cons_of_mem _ hz))]
    have hy : y / g * g = y := Int.ediv_mul_cancel (h y (List.mem_cons_self _ _))
    rw [mul_right_comm, hy]

theorem lhs_value_map_neg (a : List Int) :
    ∀ x : Nat → Int, lhs_value (a.map (fun y => -y)) x = -lhs_value a x := by
  induction a with
  | nil => intro x; simp [lhs_value]
  | cons y ys ih =>
    intro x
    simp only [List.map_cons, lhs_value, ih]
    ring

/-- C7 (as stated, refuted): the constraint `0*x1 <= INT_MIN` is made of `int` values
and is not all zero, yet `normal_form` returns no constraint for it, so no returned
constraint has the same solutions. -/
theorem normal_form_solutions_fail_at_int_min :
    (∀ x ∈ [INT_MIN, 0], is_int x) ∧ (∃ x ∈ [INT_MIN, 0], x ≠ 0) ∧
    ¬ ∃ c0 cs t, normal_form [0] inequality_type.smaller_equal INT_MIN = some (c0 :: cs, t) ∧
      ∀ x : Nat → Int,
        constraint_holds inequality_type.smaller_equal (lhs_value [0] x) INT_MIN ↔
          constraint_holds t (lhs_value cs x) c0 := by
  refine ⟨by decide, by decide, ?_⟩
  have h : normal_form [0] inequality_type.smaller_equal INT_MIN = none := by decide
  simp [h]

/-- C7 (amended): `normal_form` preserves the solution set. For a non-empty
coefficient list `a` and a right-hand side `b` of `int` values, none of them
`INT_MIN` and not all zero, and every comparison kind, `normal_form` returns a
vector `c0 :: cs` and a comparison `t` such that, for every assignment `x` of integer
values, `sum(a_i * x_i) <kind> b` holds if and only if `sum(cs_i * x_i) <t> c0` holds. -/
theorem normal_form_preserves_solutions (a : List Int) (kind : inequality_type) (b : Int)
    (hne : a ≠ []) (hint : ∀ x ∈ b :: a, is_int x) (hmin : ∀ x ∈ b :: a, x ≠ INT_MIN)
    (hnz : ∃ x ∈ b :: a, x ≠ 0) :
    ∃ c0 cs t, normal_form a kind b = some (c0 :: cs, t) ∧
      ∀ x : Nat → Int,
        constraint_holds kind (lhs_value a x) b ↔ constraint_holds t (lhs_value cs x) c0 := by
  have hg : 0 < gcd_all (b :: a) := gcd_all_pos _ hnz
  have hb : b / gcd_all (b :: a) * gcd_all (b :: a) = b :=
    Int.ediv_mul_cancel (gcd_all_dvd _ b (List.mem_cons_self _ _))
  have hl := lhs_value_map_div (gcd_all (b :: a)) a
    (fun y hy => gcd_all_dvd _ y (List.mem_cons_of_mem _ hy))
  have heq := normal_form_eq a kind b hne hint hmin hnz
  by_cases hk : kind = inequality_type.greater_equal
  · subst hk
    refine ⟨-(b / gcd_all (b :: a)), a.map (fun y => -(y / gcd_all (b :: a))),
      inequality_type.smaller_equal, by simpa using heq, ?_⟩
    intro x
    have h1 : lhs_value (a.map (fun y => -(y / gcd_all (b :: a)))) x =
        -lhs_value (a.map (fun y => y / gcd_all (b :: a))) x := by
      rw [← lhs_value_map_neg, List.map_map]; rfl
    simp only [constraint_holds, h1, neg_le_neg_iff, ge_iff_le]
    exact ((mul_le_mul_right hg).symm.trans (by rw [hl x, hb])).symm
  · refine ⟨b / gcd_all (b :: a), a.map (fun y => y / gcd_all (b :: a)), kind,
      by simpa [hk] using heq, ?_⟩
    intro x
    cases kind with
    | greater_equal => exact absurd rfl hk
    | smaller_equal =>
      simp only [constraint_holds]
      exact ((mul_le_mul_right hg).symm.trans (by rw [hl x, hb])).symm
    | equal =>
      simp only [constraint_holds]
      rw [← hl x]
      constructor
      · intro h
        exact mul_right_cancel₀ (ne_of_gt hg) (h.trans hb.symm)
      · intro h
        rw [h, hb]

/-- C7 (witness): the constraint `4*x1 - 6*x3 >= 8`. -/
theorem normal_form_preserves_solutions_witness :
    (∀ x ∈ [8, 4, 0, -6], is_int x) ∧ (∀ x ∈ [8, 4, 0, -6], x ≠ INT_MIN) ∧
    ∃ c0 cs t, normal_form [4, 0, -6] inequality_type.greater_equal 8 = some (c0 :: cs, t) ∧
      ∀ x : Nat → Int,
        constraint_holds inequality_type.greater_equal (lhs_value [4, 0, -6] x) 8 ↔
          constraint_holds t (lhs_value cs x) c0 :=
  ⟨by decide, by decide,
    normal_form_preserves_solutions [4, 0, -6] inequality_type.greater_equal 8 (by decide)
      (by decide) (by decide) (by decide)⟩
/-- C8 (as stated, refuted): for the non-empty coefficient list `[INT_MIN]` and the
right-hand side `0`, all of them `int` values and not all zero, the code computes no
divisor at all, hence no positive one: `std::gcd(0, INT_MIN)` is undefined. -/
theorem normal_form_divisor_fails_at_int_min :
    (∀ x ∈ [0, INT_MIN], is_int x) ∧ (∃ x ∈ [0, INT_MIN], x ≠ 0) ∧
    ¬ ∃ d, normal_form_divisor [INT_MIN] 0 = some d ∧ 0 < d := by
  refine ⟨by decide, by decide, ?_⟩
  have h : normal_form_divisor [INT_MIN] 0 = none := by decide
  simp [h]

/-- C8 (amended): for a non-empty coefficient list and a right-hand side none of
which is `INT_MIN`, `normal_form` computes a divisor `d`; `d` is zero if and only if
the right-hand side and every coefficient are zero, and then the division is
undefined and `normal_form` has no result; in every other case `d` is positive,
divides the right-hand side and every coefficient exactly, and each division is
defined. -/
theorem normal_form_divisor_zero_iff (a : List Int) (b : Int) (hne : a ≠ [])
    (hmin : ∀ x ∈ b :: a, x ≠ INT_MIN) :
    ∃ d, normal_form_divisor a b = some d ∧
      (d = 0 ↔ ∀ x ∈ b :: a, x = 0) ∧
      (d = 0 → int_div b d = none ∧ ∀ kind, normal_form a kind b = none) ∧
      ((∃ x ∈ b :: a, x ≠ 0) →
        0 < d ∧ ∀ x ∈ b :: a, d ∣ x ∧ int_div x d = some (x / d)) := by
  refine ⟨gcd_all (b :: a), normal_form_divisor_eq a b hne hmin, gcd_all_eq_zero_iff _, ?_, ?_⟩
  · intro h0
    refine ⟨by simp [int_div, h0], ?_⟩
    intro kind
    simp [normal_form, normal_form_divisor_eq a b hne hmin, h0, push_back_divided, int_div]
  · intro hnz
    have hg := gcd_all_pos _ hnz
    exact ⟨hg, fun x hx => ⟨gcd_all_dvd _ x hx, int_div_eq x _ hg (gcd_all_dvd _ x hx)⟩⟩

/-- C8 (witness): the coefficients `[4, 0, -6]` with the right-hand side `8`. -/
theorem normal_form_divisor_zero_iff_witness :
    (∀ x ∈ [8, 4, 0, -6], x ≠ INT_MIN) ∧
    ∃ d, normal_form_divisor [4, 0, -6] 8 = some d ∧
      (d = 0 ↔ ∀ x ∈ [8, 4, 0, -6], x = 0) ∧
      (d = 0 → int_div 8 d = none ∧ ∀ kind, normal_form [4, 0, -6] kind 8 = none) ∧
      ((∃ x ∈ [8, 4, 0, -6], x ≠ 0) →
        0 < d ∧ ∀ x ∈ [8, 4, 0, -6], d ∣ x ∧ int_div x d = some (x / d)) :=
  ⟨by decide, normal_form_divisor_zero_iff [4, 0, -6] 8 (by decide) (by decide)⟩

/-! ## The terminal nodes -/

/-- C10: in a freshly constructed `lineq_bdd` the terminal nodes carry the intervals
`topsink = [0, INTEGER_MAX]` and `botsink = [INTEGER_MIN, -1]`; for every value `s`
of the working integer type, `s` lies in the interval of `topsink` exactly when
`s >= 0` and in the interval of `botsink` exactly when `s < 0`, it never lies in
both and it always lies in one of them. -/
theorem sinks_partition_integers (s : Int) (hs : is_integer s) :
    lineq_bdd.ctor.topsink.lb_ = 0 ∧ lineq_bdd.ctor.topsink.ub_ = INTEGER_MAX ∧
    lineq_bdd.ctor.botsink.lb_ = INTEGER_MIN ∧ lineq_bdd.ctor.botsink.ub_ = -1 ∧
    (lineq_bdd.ctor.topsink.covers s ↔ 0 ≤ s) ∧
    (lineq_bdd.ctor.botsink.covers s ↔ s < 0) ∧
    ¬ (lineq_bdd.ctor.topsink.covers s ∧ lineq_bdd.ctor.botsink.covers s) ∧
    (lineq_bdd.ctor.topsink.covers s ∨ lineq_bdd.ctor.botsink.covers s) := by
  unfold is_integer at hs
  refine ⟨rfl, rfl, rfl, rfl, ?_⟩
  simp only [lineq_bdd.ctor, lineq_bdd_node.covers]
  unfold INTEGER_MIN INTEGER_MAX at *
  refine ⟨?_, ?_, ?_, ?_⟩ <;> omega

/-- C10 (witness): the value `-1` of the working integer type lies in the interval
of `botsink` only. -/
theorem sinks_partition_integers_witness :
    is_integer (-1) ∧ lineq_bdd.ctor.botsink.covers (-1) ∧
      ¬ lineq_bdd.ctor.topsink.covers (-1) :=
  ⟨by decide,
    (sinks_partition_integers (-1) (by decide)).2.2.2.2.2.1.mpr (by decide),
    fun h => absurd ((sinks_partition_integers (-1) (by decide)).2.2.2.2.1.mp h) (by decide)⟩

/-! ## `normal_form` as built: what it computes on every `int` input -/

theorem getD_set_ne (lv : List (List lineq_bdd_node)) (l l1 : Nat) (t : List lineq_bdd_node)
    (h : l ≠ l1) : (lv.set l t).getD l1 [] = lv.getD l1 [] := by
  rw [List.getD_eq_getElem?_getD, List.getD_eq_getElem?_getD, List.getElem?_set_ne h]

theorem getD_set_self (lv : List (List lineq_bdd_node)) (l : Nat) (t : List lineq_bdd_node)
    (h : l < lv.length) : (lv.set l t).getD l [] = t := by
  rw [List.getD_eq_getElem?_getD, List.getElem?_set_self h]
  rfl

theorem follow_topsink (lv : List (List lineq_bdd_node)) (x : Nat → Bool) (f : Nat) :
    follow lv x f node_ptr.topsink = some node_ptr.topsink := by
  cases f <;> rfl

theorem follow_botsink (lv : List (List lineq_bdd_node)) (x : Nat → Bool) (f : Nat) :
    follow lv x f node_ptr.botsink = some node_ptr.botsink := by
  cases f <;> rfl

theorem follow_null (lv : List (List lineq_bdd_node)) (x : Nat → Bool) (f : Nat) :
    follow lv x f node_ptr.null = none := by
  cases f <;> rfl

theorem follow_inner (lv : List (List lineq_bdd_node)) (x : Nat → Bool) (f l i : Nat)
    (n : lineq_bdd_node) (h : (lv.getD l [])[i]? = some n) :
    follow lv x (f + 1) (node_ptr.inner l i) =
      follow lv x f (if x l then n.one_kid_ else n.zero_kid_) := by
  simp only [follow, h]

theorem follow_mono (lv lv1 : List (List lineq_bdd_node)) (hext : tables_extend lv lv1)
    (x : Nat → Bool) : ∀ (f : Nat) (ptr r : node_ptr),
      follow lv x f ptr = some r → follow lv1 x f ptr = some r := by
  intro f
  induction f with
  | zero =>
    intro ptr r h
    cases ptr with
    | null => simp [follow_null] at h
    | topsink => rw [follow_topsink] at h ⊢; exact h
    | botsink => rw [follow_botsink] at h ⊢; exact h
    | inner l i => simp [follow] at h
  | succ f ih =>
    intro ptr r h
    cases ptr with
    | null => simp [follow_null] at h
    | topsink => rw [follow_topsink] at h ⊢; exact h
    | botsink => rw [follow_botsink] at h ⊢; exact h
    | inner l i =>
      cases hn : (lv.getD l [])[i]? with
      | none =>
        simp only [follow, hn] at h
        cases h
      | some n =>
        rw [follow_inner lv x f l i n hn] at h
        rw [follow_inner lv1 x f l i n (hext l i n hn)]
        exact ih _ r h

theorem ptr_correct_mono (rhs : Int) (kind : inequality_type)
    (lv lv1 : List (List lineq_bdd_node)) (hext : tables_extend lv lv1) (ptr : node_ptr)
    (cs : List Int) (p : Int) (l : Nat) (h : ptr_correct rhs kind lv ptr cs p l) :
    ptr_correct rhs kind lv1 ptr cs p l :=
  fun x => follow_mono lv lv1 hext x _ ptr _ (h x)

theorem tables_extend_refl (lv : List (List lineq_bdd_node)) : tables_extend lv lv :=
  fun _ _ _ h => h

theorem tables_extend_trans (lv lv1 lv2 : List (List lineq_bdd_node))
    (h1 : tables_extend lv lv1) (h2 : tables_extend lv1 lv2) : tables_extend lv lv2 :=
  fun l i n h => h2 l i n (h1 l i n h)

theorem bool_value_cases (v : Bool) : bool_value v = 0 ∨ bool_value v = 1 := by
  cases v <;> simp [bool_value]

theorem lhs_value_bounds (cs : List Int) : ∀ y : Nat → Int, (∀ j, y j = 0 ∨ y j = 1) →
    lb_rest cs ≤ lhs_value cs y ∧ lhs_value cs y ≤ ub_rest cs := by
  induction cs with
  | nil => intro y _; simp [lb_rest, ub_rest, lhs_value]
  | cons c rest ih =>
    intro y hy
    have h := ih (fun i => y (i + 1)) (fun j => hy (j + 1))
    simp only [lb_rest, ub_rest, lhs_value]
    rcases hy 0 with h0 | h0 <;> rw [h0] <;> constructor <;> omega

theorem completion_bounds (cs : List Int) (x : Nat → Bool) (l : Nat) :
    lb_rest cs ≤ completion cs x l ∧ completion cs x l ≤ ub_rest cs :=
  lhs_value_bounds cs _ (fun _ => bool_value_cases _)

theorem completion_cons (c : Int) (rest : List Int) (x : Nat → Bool) (l : Nat) :
    completion (c :: rest) x l = c * bool_value (x l) + completion rest x (l + 1) := by
  simp only [completion, lhs_value, Nat.add_zero]
  congr 2
  funext i
  rw [Nat.add_assoc, Nat.add_comm 1 i]

/-- The pruning rules are sound: a terminal that `sink_test` chooses stands for the
constraint over the remaining coefficients. -/
theorem sink_test_correct (rhs : Int) (kind : inequality_type)
    (lv : List (List lineq_bdd_node)) (cs : List Int) (p : Int) (l : Nat) (s : node_ptr)
    (h : sink_test kind (lb_rest cs) (ub_rest cs) (rhs - p) = some s) :
    ptr_correct rhs kind lv s cs p l := by
  intro x
  obtain ⟨hlb, hub⟩ := completion_bounds cs x l
  cases kind with
  | greater_equal => simp [sink_test] at h
  | smaller_equal =>
    simp only [sink_test] at h
    split at h
    · injection h with h; subst h
      rw [follow_topsink, if_pos]
      simp only [constraint_holds]; omega
    · split at h
      · injection h with h; subst h
        rw [follow_botsink, if_neg]
        simp only [constraint_holds]; omega
      · cases h
  | equal =>
    simp only [sink_test] at h
    split at h
    · injection h with h; subst h
      rw [follow_botsink, if_neg]
      simp only [constraint_holds]; omega
    · split at h
      · injection h with h; subst h
        rw [follow_topsink, if_pos]
        simp only [constraint_holds]; omega
      · cases h

/-- With no variable left one of the pruning rules applies. -/
theorem sink_test_nil (kind : inequality_type)
    (hk : kind = inequality_type.smaller_equal ∨ kind = inequality_type.equal) (slack : Int) :
    ∃ s, sink_test kind 0 0 slack = some s := by
  rcases hk with rfl | rfl
  · simp only [sink_test]
    by_cases h : (0 : Int) ≤ slack
    · exact ⟨_, by rw [if_pos h]⟩
    · exact ⟨node_ptr.botsink, by rw [if_neg h, if_pos (by omega)]⟩
  · simp only [sink_test]
    by_cases h : (0 : Int) > slack ∨ 0 < slack
    · exact ⟨_, by rw [if_pos h]⟩
    · exact ⟨node_ptr.topsink, by rw [if_neg h, if_pos (by omega)]⟩

theorem find_node_some (t : List lineq_bdd_node) (lb ub : Int) : ∀ i : Nat,
    find_node t lb ub = some i → ∃ n, t[i]? = some n ∧ n.lb_ = lb ∧ n.ub_ = ub := by
  induction t with
  | nil => intro i h; simp [find_node] at h
  | cons m rest ih =>
    intro i h
    simp only [find_node] at h
    split at h
    · rename_i hm
      injection h with h; subst h
      exact ⟨m, by simp, hm.1, hm.2⟩
    · cases hf : find_node rest lb ub with
      | none => simp [hf] at h
      | some j =>
        simp only [hf] at h
        injection h with h; subst h
        obtain ⟨n, hn, hlb⟩ := ih j hf
        exact ⟨n, by simpa using hn, hlb⟩

theorem find_kids_some (t : List lineq_bdd_node) (low high : node_ptr) : ∀ i : Nat,
    find_kids t low high = some i →
      ∃ n, t[i]? = some n ∧ n.zero_kid_ = low ∧ n.one_kid_ = high := by
  induction t with
  | nil => intro i h; simp [find_kids] at h
  | cons m rest ih =>
    intro i h
    simp only [find_kids] at h
    split at h
    · rename_i hm
      injection h with h; subst h
      exact ⟨m, by simp, hm.1, hm.2⟩
    · cases hf : find_kids rest low high with
      | none => simp [hf] at h
      | some j =>
        simp only [hf] at h
        injection h with h; subst h
        obtain ⟨n, hn, hk⟩ := ih j hf
        exact ⟨n, by simpa using hn, hk⟩

theorem find_kids_none (t : List lineq_bdd_node) (low high : node_ptr)
    (h : find_kids t low high = none) : ∀ (i : Nat) (n : lineq_bdd_node),
      t[i]? = some n → ¬ (n.zero_kid_ = low ∧ n.one_kid_ = high) := by
  induction t with
  | nil => intro i n hn; simp at hn
  | cons m rest ih =>
    intro i n hn
    simp only [find_kids] at h
    split at h
    · cases h
    · rename_i hm
      cases hf : find_kids rest low high with
      | some j => simp [hf] at h
      | none =>
        cases i with
        | zero =>
          simp only [List.getElem?_cons_zero] at hn
          injection hn with hn; subst hn
          exact hm
        | succ k =>
          simp only [List.getElem?_cons_succ] at hn
          exact ih hf k n hn

/-- A stored node whose children stand for the constraint after the decision stands
for the constraint before it. -/
theorem inner_correct (rhs : Int) (kind : inequality_type) (lv : List (List lineq_bdd_node))
    (l i : Nat) (n : lineq_bdd_node) (c : Int) (rest : List Int) (p : Int)
    (hn : (lv.getD l [])[i]? = some n)
    (h0 : ptr_correct rhs kind lv n.zero_kid_ rest p (l + 1))
    (h1 : ptr_correct rhs kind lv n.one_kid_ rest (p + c) (l + 1)) :
    ptr_correct rhs kind lv (node_ptr.inner l i) (c :: rest) p l := by
  intro x
  rw [List.length_cons, follow_inner lv x _ l i n hn, completion_cons]
  cases hx : x l with
  | false =>
    have := h0 x
    simp only [bool_value, Bool.false_eq_true, if_false, mul_zero, zero_add] at this ⊢
    exact this
  | true =>
    have := h1 x
    simp only [bool_value, if_true, mul_one] at this ⊢
    rw [← add_assoc]
    exact this

/-- The construction of one node keeps the tables sound, only adds nodes to them,
and returns a pointer that stands for the constraint at the current partial sum. -/
theorem build_bdd_node_correct (rhs : Int) (kind : inequality_type) (coeffs : List Int)
    (hk : kind = inequality_type.smaller_equal ∨ kind = inequality_type.equal) :
    ∀ (cs : List Int) (p : Int) (l : Nat) (lv : List (List lineq_bdd_node)),
      coeffs.drop l = cs → lv.length = coeffs.length → tables_sound rhs kind coeffs lv →
      tables_extend lv (build_bdd_node rhs kind cs p l lv).2 ∧
      (build_bdd_node rhs kind cs p l lv).2.length = lv.length ∧
      tables_sound rhs kind coeffs (build_bdd_node rhs kind cs p l lv).2 ∧
      ptr_correct rhs kind (build_bdd_node rhs kind cs p l lv).2
        (build_bdd_node rhs kind cs p l lv).1 cs p l := by
  intro cs
  induction cs with
  | nil =>
    intro p l lv _ _ hsound
    obtain ⟨s, hs⟩ := sink_test_nil kind hk (rhs - p)
    have hc := sink_test_correct rhs kind lv [] p l s hs
    simp only [build_bdd_node, hs]
    exact ⟨tables_extend_refl lv, trivial, hsound, hc⟩
  | cons c rest ih =>
    intro p l lv hdrop hlen hsound
    cases hs : sink_test kind (lb_rest (c :: rest)) (ub_rest (c :: rest)) (rhs - p) with
    | some s =>
      have hc := sink_test_correct rhs kind lv (c :: rest) p l s hs
      simp only [build_bdd_node, hs]
      exact ⟨tables_extend_refl lv, trivial, hsound, hc⟩
    | none =>
      cases hf : find_node (lv.getD l []) (p + lb_rest (c :: rest)) (p + ub_rest (c :: rest)) with
      | some i =>
        simp only [build_bdd_node, hs, hf]
        refine ⟨tables_extend_refl lv, trivial, hsound, ?_⟩
        obtain ⟨n, hn, hlb, _⟩ := find_node_some _ _ _ i hf
        obtain ⟨c1, rest1, p1, hd1, hlb1, _, hz, ho⟩ := hsound l i n hn
        rw [hdrop] at hd1
        injection hd1 with hc1 hr1
        subst hc1; subst hr1
        have hp : p1 = p := by omega
        subst hp
        exact inner_correct rhs kind lv l i n c rest p1 hn hz ho
      | none =>
        have hl : l < coeffs.length := by
          by_contra hge
          rw [List.drop_of_length_le (by omega)] at hdrop
          cases hdrop
        have hdrop1 : coeffs.drop (l + 1) = rest := by
          rw [← List.tail_drop, hdrop]; rfl
        obtain ⟨he1, hl1, hs1, hc1⟩ := ih p (l + 1) lv hdrop1 hlen hsound
        obtain ⟨he2, hl2, hs2, hc2⟩ :=
          ih (p + c) (l + 1) (build_bdd_node rhs kind rest p (l + 1) lv).2 hdrop1
            (hl1.trans hlen) hs1
        simp only [build_bdd_node, hs, hf]
        generalize build_bdd_node rhs kind rest p (l + 1) lv = low at *
        generalize build_bdd_node rhs kind rest (p + c) (l + 1) low.2 = high at *
        have hl3 : l < high.2.length := by omega
        cases hfk : find_kids (high.2.getD l []) low.1 high.1 with
        | some i =>
          simp only []
          refine ⟨tables_extend_trans _ _ _ he1 he2, by omega, hs2, ?_⟩
          obtain ⟨n, hn, hz, ho⟩ := find_kids_some _ _ _ i hfk
          refine inner_correct rhs kind _ l i n c rest p hn ?_ ?_
          · rw [hz]; exact ptr_correct_mono rhs kind _ _ he2 _ _ _ _ hc1
          · rw [ho]; exact hc2
        | none =>
          simp only []
          have hext3 : tables_extend high.2
              (high.2.set l (high.2.getD l [] ++
                [lineq_bdd_node.mk (p + lb_rest (c :: rest)) (p + ub_rest (c :: rest))
                  low.1 high.1])) := by
            intro l1 i n hn
            by_cases hll : l = l1
            · subst hll
              rw [getD_set_self _ _ _ hl3]
              have hi : i < (high.2.getD l []).length := (List.getElem?_eq_some.mp hn).1
              rw [List.getElem?_append_left hi]
              exact hn
            · rw [getD_set_ne _ _ _ _ hll]
              exact hn
          have hnew : ((high.2.set l (high.2.getD l [] ++
                [lineq_bdd_node.mk (p + lb_rest (c :: rest)) (p + ub_rest (c :: rest))
                  low.1 high.1])).getD l [])[(high.2.getD l []).length]? =
              some (lineq_bdd_node.mk (p + lb_rest (c :: rest)) (p + ub_rest (c :: rest))
                  low.1 high.1) := by
            rw [getD_set_self _ _ _ hl3, List.getElem?_concat_length]
          have hzero := ptr_correct_mono rhs kind _ _ hext3 _ _ _ _
            (ptr_correct_mono rhs kind _ _ he2 _ _ _ _ hc1)
          have hone := ptr_correct_mono rhs kind _ _ hext3 _ _ _ _ hc2
          refine ⟨tables_extend_trans _ _ _ (tables_extend_trans _ _ _ he1 he2) hext3, ?_, ?_, ?_⟩
          · rw [List.length_set]; omega
          · intro l1 i n hn
            by_cases hll : l = l1
            · subst hll
              rw [getD_set_self _ _ _ hl3] at hn
              by_cases hi : i < (high.2.getD l []).length
              · rw [List.getElem?_append_left hi] at hn
                obtain ⟨c1, rest1, p1, hd1, hlb1, hub1, hz, ho⟩ := hs2 l i n hn
                exact ⟨c1, rest1, p1, hd1, hlb1, hub1,
                  ptr_correct_mono rhs kind _ _ hext3 _ _ _ _ hz,
                  ptr_correct_mono rhs kind _ _ hext3 _ _ _ _ ho⟩
              · rw [List.getElem?_append_right (by omega)] at hn
                have hi0 : i - (high.2.getD l []).length = 0 := by
                  by_contra hne
                  rw [List.getElem?_eq_none (by simp only [List.length_singleton]; omega)] at hn
                  cases hn
                rw [hi0] at hn
                simp only [List.getElem?_cons_zero] at hn
                injection hn with hn
                subst hn
                exact ⟨c, rest, p, hdrop, rfl, rfl, hzero, hone⟩
            · rw [getD_set_ne _ _ _ _ hll] at hn
              obtain ⟨c1, rest1, p1, hd1, hlb1, hub1, hz, ho⟩ := hs2 l1 i n hn
              exact ⟨c1, rest1, p1, hd1, hlb1, hub1,
                ptr_correct_mono rhs kind _ _ hext3 _ _ _ _ hz,
                ptr_correct_mono rhs kind _ _ hext3 _ _ _ _ ho⟩
          · exact inner_correct rhs kind _ l _ _ c rest p hnew hzero hone

theorem tables_sound_empty (rhs : Int) (kind : inequality_type) (coeffs : List Int) (k : Nat) :
    tables_sound rhs kind coeffs (List.replicate k []) := by
  intro l i n hn
  rw [List.getD_eq_getElem?_getD, List.getElem?_replicate] at hn
  split at hn <;> simp at hn

/-- C6: for every normalized inequality (a right-hand side `rhs`, coefficients, and
the comparison `smaller_equal` or `equal`) whose coefficient magnitudes sum up within
the working integer type, `build_from_inequality` builds a diagram, and for every
boolean assignment `x` to the variables, following the low/high children from the
root reaches the top sink if and only if the inequality holds under `x`, and reaches
the bottom sink otherwise. -/
theorem build_from_inequality_correct (rhs : Int) (coefficients : List Int)
    (ineq_type : inequality_type)
    (hk : ineq_type = inequality_type.smaller_equal ∨ ineq_type = inequality_type.equal)
    (hov : sum_abs coefficients ≤ INTEGER_MAX) :
    ∃ bdd, build_from_inequality (rhs :: coefficients) ineq_type = Except.ok bdd ∧
      ∀ x : Nat → Bool,
        (bdd.evaluate x = some node_ptr.topsink ↔
          constraint_holds ineq_type
            (lhs_value coefficients (fun i => bool_value (x i))) rhs) ∧
        (¬ constraint_holds ineq_type
            (lhs_value coefficients (fun i => bool_value (x i))) rhs →
          bdd.evaluate x = some node_ptr.botsink) := by
  have hk1 : ineq_type ≠ inequality_type.greater_equal := by
    rcases hk with rfl | rfl <;> decide
  have hov1 : ¬ sum_abs coefficients > INTEGER_MAX := by omega
  obtain ⟨_, hlen, _, hc⟩ := build_bdd_node_correct rhs ineq_type coefficients hk coefficients 0 0
    (List.replicate coefficients.length []) rfl (by simp)
    (tables_sound_empty rhs ineq_type coefficients _)
  refine ⟨_, by simp only [build_from_inequality, hk1, hov1, if_false]; rfl, ?_⟩
  intro x
  have hx := hc x
  have hcomp : completion coefficients x 0 =
      lhs_value coefficients (fun i => bool_value (x i)) := by
    simp only [completion, Nat.zero_add]
  rw [hcomp, zero_add] at hx
  have hev : (lineq_bdd.mk (List.replicate coefficients.length false) coefficients
      (rests_of coefficients) rhs
      (build_bdd_node rhs ineq_type coefficients 0 0 (List.replicate coefficients.length [])).1
      (build_bdd_node rhs ineq_type coefficients 0 0 (List.replicate coefficients.length [])).2
      lineq_bdd.ctor.topsink lineq_bdd.ctor.botsink).evaluate x =
      follow (build_bdd_node rhs ineq_type coefficients 0 0
        (List.replicate coefficients.length [])).2 x coefficients.length
        (build_bdd_node rhs ineq_type coefficients 0 0
          (List.replicate coefficients.length [])).1 := by
    simp only [lineq_bdd.evaluate, hlen, List.length_replicate]
  rw [hev, hx]
  by_cases hh : constraint_holds ineq_type
      (lhs_value coefficients (fun i => bool_value (x i))) rhs
  · simp [hh]
  · simp [hh]

/-- C6 (witness): the inequality `x1 + x2 <= 1` sends the assignment `(1,1)` to the
bottom sink and the three other assignments to the top sink. -/
theorem build_from_inequality_correct_witness :
    ∃ bdd, build_from_inequality [1, 1, 1] inequality_type.smaller_equal = Except.ok bdd ∧
      bdd.evaluate (fun _ => true) = some node_ptr.botsink ∧
      bdd.evaluate (fun _ => false) = some node_ptr.topsink ∧
      bdd.evaluate (fun i => decide (i = 0)) = some node_ptr.topsink ∧
      bdd.evaluate (fun i => decide (i = 1)) = some node_ptr.topsink := by
  obtain ⟨bdd, hb, hx⟩ := build_from_inequality_correct 1 [1, 1]
    inequality_type.smaller_equal (Or.inl rfl) (by decide)
  exact ⟨bdd, hb, (hx _).2 (by decide), (hx _).1.mpr (by decide), (hx _).1.mpr (by decide),
    (hx _).1.mpr (by decide)⟩

/-! ## Reducedness of the built diagram -/

/-- The construction of one node keeps the tables reduced and keeps their number. -/
theorem build_bdd_node_reduced (rhs : Int) (kind : inequality_type) :
    ∀ (cs : List Int) (p : Int) (l : Nat) (lv : List (List lineq_bdd_node)),
      l + cs.length ≤ lv.length → tables_reduced lv →
      tables_reduced (build_bdd_node rhs kind cs p l lv).2 ∧
      (build_bdd_node rhs kind cs p l lv).2.length = lv.length := by
  intro cs
  induction cs with
  | nil =>
    intro p l lv _ hred
    simp only [build_bdd_node]
    split <;> exact ⟨hred, rfl⟩
  | cons c rest ih =>
    intro p l lv hlen hred
    simp only [List.length_cons] at hlen
    cases hs : sink_test kind (lb_rest (c :: rest)) (ub_rest (c :: rest)) (rhs - p) with
    | some s =>
      simp only [build_bdd_node, hs]
      exact ⟨hred, trivial⟩
    | none =>
      cases hf : find_node (lv.getD l []) (p + lb_rest (c :: rest)) (p + ub_rest (c :: rest)) with
      | some i =>
        simp only [build_bdd_node, hs, hf]
        exact ⟨hred, trivial⟩
      | none =>
        obtain ⟨hr1, hl1⟩ := ih p (l + 1) lv (by omega) hred
        obtain ⟨hr2, hl2⟩ :=
          ih (p + c) (l + 1) (build_bdd_node rhs kind rest p (l + 1) lv).2 (by omega) hr1
        simp only [build_bdd_node, hs, hf]
        generalize build_bdd_node rhs kind rest p (l + 1) lv = low at *
        generalize build_bdd_node rhs kind rest (p + c) (l + 1) low.2 = high at *
        have hl3 : l < high.2.length := by omega
        cases hfk : find_kids (high.2.getD l []) low.1 high.1 with
        | some i =>
          simp only []
          exact ⟨hr2, by omega⟩
        | none =>
          simp only []
          refine ⟨?_, by rw [List.length_set]; omega⟩
          have hfresh := find_kids_none _ _ _ hfk
          intro l1 i j n m hn hm hz ho
          by_cases hll : l = l1
          · subst hll
            rw [getD_set_self _ _ _ hl3] at hn hm
            have hlast : ∀ (k : Nat) (q : lineq_bdd_node),
                (high.2.getD l [] ++
                  [lineq_bdd_node.mk (p + lb_rest (c :: rest)) (p + ub_rest (c :: rest))
                    low.1 high.1])[k]? = some q →
                ¬ k < (high.2.getD l []).length →
                k = (high.2.getD l []).length ∧ q.zero_kid_ = low.1 ∧ q.one_kid_ = high.1 := by
              intro k q hq hk
              rw [List.getElem?_append_right (by omega)] at hq
              have hk0 : k - (high.2.getD l []).length = 0 := by
                by_contra hne
                rw [List.getElem?_eq_none (by simp only [List.length_singleton]; omega)] at hq
                cases hq
              rw [hk0] at hq
              simp only [List.getElem?_cons_zero] at hq
              injection hq with hq
              subst hq
              exact ⟨by omega, rfl, rfl⟩
            by_cases hi : i < (high.2.getD l []).length
            · rw [List.getElem?_append_left hi] at hn
              by_cases hj : j < (high.2.getD l []).length
              · rw [List.getElem?_append_left hj] at hm
                exact hr2 l i j n m hn hm hz ho
              · obtain ⟨_, hmz, hmo⟩ := hlast j m hm hj
                exact absurd ⟨hz.trans hmz, ho.trans hmo⟩ (hfresh i n hn)
            · obtain ⟨hik, hnz, hno⟩ := hlast i n hn hi
              by_cases hj : j < (high.2.getD l []).length
              · rw [List.getElem?_append_left hj] at hm
                exact absurd ⟨hz.symm.trans hnz, ho.symm.trans hno⟩ (hfresh j m hm)
              · obtain ⟨hjk, _, _⟩ := hlast j m hm hj
                omega
          · rw [getD_set_ne _ _ _ _ hll] at hn hm
            exact hr2 l1 i j n m hn hm hz ho

/-- Reducedness of section 8 for the diagram that `build_from_inequality` builds: no
two distinct nodes of a level have identical (low, high) children. -/
theorem build_from_inequality_reduced (nf : List Int) (ineq_type : inequality_type)
    (bdd : lineq_bdd) (h : build_from_inequality nf ineq_type = Except.ok bdd) :
    ∀ (l i j : Nat) (n m : lineq_bdd_node),
      (bdd.levels.getD l [])[i]? = some n → (bdd.levels.getD l [])[j]? = some m →
      n.zero_kid_ = m.zero_kid_ → n.one_kid_ = m.one_kid_ → i = j := by
  cases nf with
  | nil => simp [build_from_inequality] at h
  | cons rhs coefficients =>
    simp only [build_from_inequality] at h
    split at h
    · cases h
    · split at h
      · cases h
      · injection h with h
        subst h
        have hempty : tables_reduced (List.replicate coefficients.length []) := by
          intro l i j n m hn
          rw [List.getD_eq_getElem?_getD, List.getElem?_replicate] at hn
          split at hn <;> simp at hn
        exact (build_bdd_node_reduced rhs ineq_type coefficients 0 0
          (List.replicate coefficients.length []) (by simp) hempty).1

end LPMP
